import Mathlib

/-!
Verification development for the S3 directory-sync tool (`SyncToS3Activity.py`).

The Python program is shallowly embedded:
* a Python `dict` (insertion ordered, unique keys) becomes an association
  list `List (String × String)` iterated in order; `dict.get` is first-match
  lookup, `d[k] = v` updates in place or appends;
* `S3SyncTool.sync`'s classification loops become `computeUploads` /
  `computeDeletes`, with Python string truthiness (`if not s3Md5`) modelled
  faithfully (absent OR empty string both take the "missing" branch);
* the side effects of a run (prints and S3 client calls) become a trace of
  `Event`s; the thread pool used for uploads is modelled by an arbitrary
  interleaving (`isMerge`) of the per-item event lists, which all complete
  before the sequential delete loop because `with ThreadPoolExecutor(...)`
  joins all futures on exit;
* `posixpath.join` / `posixpath.relpath` (the host is POSIX, so `os.path`
  is `posixpath`) are implemented on `List Char` exactly following CPython,
  with the process working directory an explicit `cwd` parameter (it enters
  through `abspath` inside `relpath`);
* MD5 is implemented in full over byte lists (`Nat` arithmetic mod 2^32);
* a fallible file read becomes `Except IOErr (List Nat)`: `calculateMd5`
  propagates the error, and `listLocalFiles` has no handler around it, so
  the whole manifest build aborts on the first failing file.
-/

/-! ## Python dicts as insertion-ordered association lists -/

abbrev Manifest := List (String × String)

/-- First-match lookup, the embedding of `dict.get` (returns `none` for a
missing key, which models Python `None`). -/
def dictGet : Manifest → String → Option String
  | [], _ => none
  | (k, v) :: rest, key => if k = key then some v else dictGet rest key

/-- Embedding of the Python `key in dict` membership test. -/
def containsKey (m : Manifest) (k : String) : Bool :=
  (dictGet m k).isSome

/-- Embedding of `d[k] = v`: updates the value in place when the key exists
(keeping its position, as Python dicts do) and appends otherwise. -/
def dictSet (m : Manifest) (k v : String) : Manifest :=
  if containsKey m k then m.map (fun kv => if kv.1 = k then (k, v) else kv)
  else m ++ [(k, v)]

/-- Keys are pairwise distinct, an invariant every Python dict satisfies. -/
def NodupKeys (m : Manifest) : Prop :=
  (m.map Prod.fst).Nodup

/-! ## The reconciler (`S3SyncTool.sync`, lines 84-103) -/

/-- Classification of one local file against the remote manifest. -/
inductive Cls
  | missing
  | changed
  | current
deriving DecidableEq

/-- The branch taken by the first loop of `sync` for a local entry:
`s3Md5 = s3Objects.get(localFile)`; `if not s3Md5` (None OR empty string) is
the "missing" branch, `elif localMd5 != s3Md5` is "changed", else "current". -/
def classify (s3Objects : Manifest) (localFile localMd5 : String) : Cls :=
  match dictGet s3Objects localFile with
  | none => Cls.missing
  | some t => if t = "" then Cls.missing else if localMd5 ≠ t then Cls.changed else Cls.current

/-- Whether a classification appends the file to the upload list (the first
two branches of the loop both do). -/
def Cls.isUpload : Cls → Bool
  | Cls.missing => true
  | Cls.changed => true
  | Cls.current => false

/-- The `uploads` list built by `sync`: local files whose classification is
missing or changed, in local-manifest iteration order. -/
def computeUploads (localFiles s3Objects : Manifest) : List String :=
  (localFiles.filter (fun kv => (classify s3Objects kv.1 kv.2).isUpload)).map Prod.fst

/-- The `deletes` list built by `sync`: remote keys not present in the local
manifest, in remote-manifest iteration order. -/
def computeDeletes (localFiles s3Objects : Manifest) : List String :=
  (s3Objects.filter (fun kv => !containsKey localFiles kv.1)).map Prod.fst

/-! ## POSIX path functions on `List Char`

These embed `posixpath.join`, `posixpath.normpath` (for absolute paths, as
used inside `abspath`) and `posixpath.relpath` from CPython, which is what
`os.path` resolves to on the POSIX host the tool runs on.  `cwd` is the
process working directory, entering through `abspath`. -/

/-- Embedding of `posixpath.join a b` (single separator, two arguments, as
the program always calls it): an absolute second argument wins; otherwise
concatenate, inserting `/` unless `a` is empty or already ends in `/`. -/
def pjoinL (a b : List Char) : List Char :=
  if b.head? = some '/' then b
  else if a = [] ∨ a.getLast? = some '/' then a ++ b
  else a ++ '/' :: b

/-- Path components: maximal runs of non-separator characters, with empty
runs dropped — `[x for x in s.split(sep) if x]` as `relpath` computes it. -/
def splitComps : List Char → List (List Char)
  | [] => []
  | c :: rest =>
    if c = '/' then splitComps rest
    else
      match splitComps rest with
      | [] => [[c]]
      | comp :: comps =>
        if rest.head? = some '/' then [c] :: comp :: comps
        else (c :: comp) :: comps

/-- One step of `posixpath.normpath` on an absolute path's component list:
`.` is dropped, `..` pops the last component (or is dropped at the root),
anything else is appended. -/
def normStep (acc : List (List Char)) (comp : List Char) : List (List Char) :=
  if comp = ['.'] then acc
  else if comp = ['.', '.'] then acc.dropLast
  else acc ++ [comp]

/-- Component normalization of an absolute path (`posixpath.normpath`). -/
def normComps (comps : List (List Char)) : List (List Char) :=
  comps.foldl normStep []

/-- Component list of `posixpath.abspath s` run in working directory `cwd`:
`normpath(join(cwd, s))`. -/
def absComps (cwd s : List Char) : List (List Char) :=
  normComps (splitComps (pjoinL cwd s))

/-- Length of the longest common prefix of two component lists
(`genericpath.commonprefix`). -/
def commonPrefixLen : List (List Char) → List (List Char) → Nat
  | a :: as, b :: bs => if a = b then commonPrefixLen as bs + 1 else 0
  | _, _ => 0

/-- Joining components back with `/` (`join(*rel_list)` on non-absolute
components). -/
def intercalateSlash (comps : List (List Char)) : List Char :=
  List.intercalate ['/'] comps

/-- The tail of `posixpath.relpath` once both absolute component lists are
known. -/
def relpathCore (startList pathList : List (List Char)) : List Char :=
  let i := commonPrefixLen startList pathList
  let rel := List.replicate (startList.length - i) ['.', '.'] ++ pathList.drop i
  if rel = [] then ['.'] else intercalateSlash rel

/-- Embedding of `posixpath.relpath path start` in working directory `cwd`. -/
def relpathL (cwd path start : List Char) : List Char :=
  relpathCore (absComps cwd start) (absComps cwd path)

/-- Embedding of `.replace("\\", "/")` (the replaced pattern is a single
character, so this is a character map). -/
def replaceBS (s : List Char) : List Char :=
  s.map (fun c => if c = '\\' then '/' else c)

/-- Embedding of `.strip(chars)` for a single strip character. -/
def stripCharL (ch : Char) (s : List Char) : List Char :=
  ((s.dropWhile (fun c => c = ch)).reverse.dropWhile (fun c => c = ch)).reverse

/-- String-level `posixpath.relpath` wrapper. -/
def posixRelpath (cwd path start : String) : String :=
  ⟨relpathL cwd.data path.data start.data⟩

/-! ## MD5 (`hashlib.md5`) over byte lists

A faithful implementation of RFC 1321 with 32-bit words as `Nat` reduced
mod `2^32`.  `calculateMd5` streams the file in 4096-byte chunks and feeds
them all into one digest, so the digest is the MD5 of the file's full byte
content; the chunking itself therefore does not appear in the model. -/

/-- Word modulus `2^32`. -/
def w32 : Nat := 4294967296

/-- Modular 32-bit addition. -/
def mAdd (a b : Nat) : Nat := (a + b) % w32

/-- 32-bit complement. -/
def mNot (a : Nat) : Nat := a ^^^ 4294967295

/-- 32-bit left rotation (inputs already below `2^32`). -/
def rotl (x s : Nat) : Nat := ((x <<< s) % w32) ||| (x >>> (32 - s))

/-- The 64 sine-derived constants `K` of MD5. -/
def md5K : List Nat :=
  [0xd76aa478, 0xe8c7b756, 0x242070db, 0xc1bdceee,
   0xf57c0faf, 0x4787c62a, 0xa8304613, 0xfd469501,
   0x698098d8, 0x8b44f7af, 0xffff5bb1, 0x895cd7be,
   0x6b901122, 0xfd987193, 0xa679438e, 0x49b40821,
   0xf61e2562, 0xc040b340, 0x265e5a51, 0xe9b6c7aa,
   0xd62f105d, 0x02441453, 0xd8a1e681, 0xe7d3fbc8,
   0x21e1cde6, 0xc33707d6, 0xf4d50d87, 0x455a14ed,
   0xa9e3e905, 0xfcefa3f8, 0x676f02d9, 0x8d2a4c8a,
   0xfffa3942, 0x8771f681, 0x6d9d6122, 0xfde5380c,
   0xa4beea44, 0x4bdecfa9, 0xf6bb4b60, 0xbebfbc70,
   0x289b7ec6, 0xeaa127fa, 0xd4ef3085, 0x04881d05,
   0xd9d4d039, 0xe6db99e5, 0x1fa27cf8, 0xc4ac5665,
   0xf4292244, 0x432aff97, 0xab9423a7, 0xfc93a039,
   0x655b59c3, 0x8f0ccc92, 0xffeff47d, 0x85845dd1,
   0x6fa87e4f, 0xfe2ce6e0, 0xa3014314, 0x4e0811a1,
   0xf7537e82, 0xbd3af235, 0x2ad7d2bb, 0xeb86d391]

/-- The per-round rotation amounts `s` of MD5. -/
def md5S : List Nat :=
  [7, 12, 17, 22, 7, 12, 17, 22, 7, 12, 17, 22, 7, 12, 17, 22,
   5, 9, 14, 20, 5, 9, 14, 20, 5, 9, 14, 20, 5, 9, 14, 20,
   4, 11, 16, 23, 4, 11, 16, 23, 4, 11, 16, 23, 4, 11, 16, 23,
   6, 10, 15, 21, 6, 10, 15, 21, 6, 10, 15, 21, 6, 10, 15, 21]

/-- Message-word index used at step `i`. -/
def md5G (i : Nat) : Nat :=
  if i < 16 then i
  else if i < 32 then (5 * i + 1) % 16
  else if i < 48 then (3 * i + 5) % 16
  else (7 * i) % 16

/-- Nonlinear round function used at step `i`. -/
def md5F (i b c d : Nat) : Nat :=
  if i < 16 then (b &&& c) ||| (mNot b &&& d)
  else if i < 32 then (d &&& b) ||| (mNot d &&& c)
  else if i < 48 then b ^^^ c ^^^ d
  else c ^^^ (b ||| mNot d)

/-- The four-word MD5 chaining state. -/
structure MD5State where
  a : Nat
  b : Nat
  c : Nat
  d : Nat
deriving DecidableEq

/-- One of the 64 steps of the compression function. -/
def md5Step (M : List Nat) (st : MD5State) (i : Nat) : MD5State :=
  let f := md5F i st.b st.c st.d
  let tmp := mAdd (mAdd (mAdd st.a f) (md5K.getD i 0)) (M.getD (md5G i) 0)
  ⟨st.d, mAdd st.b (rotl tmp (md5S.getD i 0)), st.b, st.c⟩

/-- A 64-byte block as 16 little-endian 32-bit words. -/
def wordsOf (block : List Nat) : List Nat :=
  (List.range 16).map (fun j =>
    block.getD (4 * j) 0 + 256 * block.getD (4 * j + 1) 0
      + 65536 * block.getD (4 * j + 2) 0 + 16777216 * block.getD (4 * j + 3) 0)

/-- Compression of one 64-byte block into the chaining state. -/
def md5Block (st : MD5State) (block : List Nat) : MD5State :=
  let M := wordsOf block
  let r := (List.range 64).foldl (md5Step M) st
  ⟨mAdd st.a r.a, mAdd st.b r.b, mAdd st.c r.c, mAdd st.d r.d⟩

/-- Cutting the padded message into 64-byte blocks. -/
def toBlocks (l : List Nat) : List (List Nat) :=
  if h : l = [] then [] else l.take 64 :: toBlocks (l.drop 64)
termination_by l.length
decreasing_by
  cases l with
  | nil => exact absurd rfl h
  | cons x rest => simpa using Nat.lt_succ_of_le (Nat.sub_le rest.length 63)

/-- A 64-bit quantity as 8 little-endian bytes. -/
def le64 (n : Nat) : List Nat :=
  (List.range 8).map (fun i => (n >>> (8 * i)) % 256)

/-- A 32-bit word as 4 little-endian bytes. -/
def le32 (n : Nat) : List Nat :=
  (List.range 4).map (fun i => (n >>> (8 * i)) % 256)

/-- MD5 padding: `0x80`, zeros to 56 mod 64, then the bit length as a
little-endian 64-bit value. -/
def padMessage (msg : List Nat) : List Nat :=
  msg ++ 128 :: List.replicate ((119 - msg.length % 64) % 64) 0
      ++ le64 ((msg.length * 8) % (2 ^ 64))

/-- The fixed MD5 initial state. -/
def md5Init : MD5State := ⟨0x67452301, 0xefcdab89, 0x98badcfe, 0x10325476⟩

/-- Final chaining state over a whole message. -/
def md5Final (msg : List Nat) : MD5State :=
  (toBlocks (padMessage msg)).foldl md5Block md5Init

/-- A hex digit character (lowercase, as `hexdigest` produces). -/
def hexDigit (n : Nat) : Char :=
  if n < 10 then Char.ofNat (48 + n) else Char.ofNat (87 + n)

/-- A byte as two hex characters. -/
def byteHex (b : Nat) : List Char := [hexDigit (b / 16), hexDigit (b % 16)]

/-- Embedding of `hashlib.md5(content).hexdigest()`. -/
def md5Hex (msg : List Nat) : String :=
  let st := md5Final msg
  ⟨(le32 st.a ++ le32 st.b ++ le32 st.c ++ le32 st.d).foldr
    (fun b acc => byteHex b ++ acc) []⟩

/-! ## Local manifest builder (`calculateMd5`, lines 46-52; `listLocalFiles`, lines 19-27) -/

/-- The kinds of I/O failure a file read can raise. -/
inductive IOErr
  | notFound
  | permissionDenied
  | ioFault
deriving DecidableEq

/-- Embedding of `calculateMd5`: the outcome of opening and chunk-reading the
file is given as `Except IOErr (List Nat)` (a mid-stream read fault collapses
to the error); on success the result is the hex digest of the content.  There
is no exception handler in the Python function, so an error propagates. -/
def calculateMd5 (readResult : Except IOErr (List Nat)) : Except IOErr String :=
  match readResult with
  | Except.error e => Except.error e
  | Except.ok content => Except.ok (md5Hex content)

/-- The loop body of `listLocalFiles` over the `os.walk` enumeration, carrying
the `files` dict.  `walk` lists each regular file's full path together with
the outcome of reading it; the relative path is
`os.path.relpath(fullPath, localFolder).replace("\\", "/")`.  An exception
from `calculateMd5` is unhandled and aborts the whole build. -/
def listLocalFilesGo (cwd localFolder : String) (files : Manifest) :
    List (String × Except IOErr (List Nat)) → Except IOErr Manifest
  | [] => Except.ok files
  | (fullPath, r) :: rest =>
    match calculateMd5 r with
    | Except.error e => Except.error e
    | Except.ok h =>
      let relativePath : String := ⟨replaceBS (relpathL cwd.data fullPath.data localFolder.data)⟩
      listLocalFilesGo cwd localFolder (dictSet files relativePath h) rest

/-- Embedding of `listLocalFiles` (`cwd` is the process working directory,
used by `os.path.relpath`). -/
def listLocalFiles (cwd localFolder : String)
    (walk : List (String × Except IOErr (List Nat))) : Except IOErr Manifest :=
  listLocalFilesGo cwd localFolder [] walk

/-! ## Remote manifest builder (`listS3Objects`, lines 29-44) -/

/-- One object of a listing page: its key and its `ETag`. -/
structure S3Entry where
  key : String
  etag : String
deriving DecidableEq

/-- Embedding of `obj['ETag'].strip('"')`: all leading and trailing quote
characters removed. -/
def stripQuotes (s : String) : String :=
  ⟨stripCharL '"' s.data⟩

/-- The relative key recorded for an object key, from the loop body:
`os.path.relpath(key, prefix).replace("\\", "/")` when the prefix is a
non-empty (truthy) string, the raw key otherwise. -/
def recordedKey (cwd pfx key : String) : String :=
  if pfx ≠ "" then ⟨replaceBS (relpathL cwd.data key.data pfx.data)⟩ else key

/-- Embedding of `listS3Objects`: every page of the paginated listing is
walked in order and `objects[relativeKey] = etag` is applied per object. -/
def listS3Objects (cwd pfx : String) (pages : List (List S3Entry)) : Manifest :=
  pages.foldl
    (fun objects page =>
      page.foldl
        (fun objects obj => dictSet objects (recordedKey cwd pfx obj.key) (stripQuotes obj.etag))
        objects)
    []

/-! ## Transfer executor (`uploadFile`, lines 54-64; `deleteS3Object`, lines 66-75; `sync`, lines 105-115) -/

/-- The run configuration (`S3SyncTool.__init__`); `pfx` embeds the field
called "prefix" in the source. -/
structure Config where
  localFolder : String
  bucketName : String
  pfx : String
  dryRun : Bool
  maxThreads : Nat

/-- The S3 key targeted for a relative path, from `uploadFile` and
`deleteS3Object` (both compute it the same way):
`os.path.join(prefix, f).replace("\\", "/") if prefix else f`. -/
def s3KeyFor (cfg : Config) (f : String) : String :=
  if cfg.pfx ≠ "" then ⟨replaceBS (pjoinL cfg.pfx.data f.data)⟩ else f

/-- The local path read by an upload: `os.path.join(localFolder, f)`. -/
def localPathFor (cfg : Config) (f : String) : String :=
  ⟨pjoinL cfg.localFolder.data f.data⟩

/-- Observable actions of one run: progress prints and S3 client calls.
`s3UploadCall` / `s3DeleteCall` are the only store mutations; everything
else is console reporting. -/
inductive Event
  | startMsg
  | doneMsg
  | missingRemote (f : String)
  | changedMsg (f : String)
  | currentMsg (f : String)
  | orphanMsg (f : String)
  | uploadCount (n : Nat)
  | wouldUpload (key : String)
  | wouldDelete (key : String)
  | s3UploadCall (bucket key localPath : String)
  | uploadedMsg (key : String)
  | s3DeleteCall (bucket key : String)
  | deletedMsg (key : String)
deriving DecidableEq

/-- Events of one `uploadFile` call.  In dry-run mode it only reports intent.
Otherwise `s3.upload_file` is called; `upOk f` tells whether that call
succeeds.  On success the "Hochgeladen" line is printed; on failure the
exception propagates out of `uploadFile` (nothing further is printed or
recorded by the function). -/
def uploadFileEvents (cfg : Config) (upOk : String → Bool) (f : String) : List Event :=
  if cfg.dryRun then [Event.wouldUpload (s3KeyFor cfg f)]
  else if upOk f then
    [Event.s3UploadCall cfg.bucketName (s3KeyFor cfg f) (localPathFor cfg f),
     Event.uploadedMsg (s3KeyFor cfg f)]
  else
    [Event.s3UploadCall cfg.bucketName (s3KeyFor cfg f) (localPathFor cfg f)]

/-- Events of one `deleteS3Object` call (the delete loop is not exercised
with failures in any claim, so the call is modelled as succeeding). -/
def deleteObjEvents (cfg : Config) (f : String) : List Event :=
  if cfg.dryRun then [Event.wouldDelete (s3KeyFor cfg f)]
  else [Event.s3DeleteCall cfg.bucketName (s3KeyFor cfg f), Event.deletedMsg (s3KeyFor cfg f)]

/-- The per-file report printed by the two classification loops of `sync`,
in their order: one line per local file, then one line per orphaned remote
object. -/
def classifyEvents (localFiles s3Objects : Manifest) : List Event :=
  localFiles.map (fun kv =>
    match classify s3Objects kv.1 kv.2 with
    | Cls.missing => Event.missingRemote kv.1
    | Cls.changed => Event.changedMsg kv.1
    | Cls.current => Event.currentMsg kv.1)
  ++ (s3Objects.filter (fun kv => !containsKey localFiles kv.1)).map (fun kv => Event.orphanMsg kv.1)

/-- Concatenation of a list of lists. -/
def concatAll : List (List α) → List α
  | [] => []
  | l :: ls => l ++ concatAll ls

/-- Decides whether `tr` is an interleaving of the lists in `lss`, each kept
in its own order — the possible schedules of the upload thread pool. -/
def isMerge {α : Type} [DecidableEq α] : List (List α) → List α → Bool
  | lss, [] => lss.all (fun ls => ls.isEmpty)
  | lss, e :: tr =>
    (List.range lss.length).any (fun i =>
      match lss[i]? with
      | some (x :: xs) => decide (x = e) && isMerge (lss.set i xs) tr
      | _ => false)

/-- The event trace of one `sync()` run under the sequential schedule in
which the pool happens to finish the uploads in list order.  The upload
count line is printed only when the upload list is nonempty (`if uploads:`). -/
def syncEventsSeq (cfg : Config) (localFiles s3Objects : Manifest) (upOk : String → Bool) : List Event :=
  Event.startMsg ::
    (classifyEvents localFiles s3Objects
      ++ (if computeUploads localFiles s3Objects = [] then []
          else [Event.uploadCount (computeUploads localFiles s3Objects).length])
      ++ concatAll ((computeUploads localFiles s3Objects).map (fun f => uploadFileEvents cfg upOk f))
      ++ concatAll ((computeDeletes localFiles s3Objects).map (fun f => deleteObjEvents cfg f))
      ++ [Event.doneMsg])

/-- The possible event traces of one `sync()` run: the upload phase is any
interleaving of the per-item upload events (the thread pool schedules them
arbitrarily), and the `with` block joins every future before the sequential
delete loop starts. -/
def SyncTrace (cfg : Config) (localFiles s3Objects : Manifest) (upOk : String → Bool)
    (tr : List Event) : Prop :=
  ∃ um,
    isMerge ((computeUploads localFiles s3Objects).map (fun f => uploadFileEvents cfg upOk f)) um = true ∧
    tr = Event.startMsg ::
      (classifyEvents localFiles s3Objects
        ++ (if computeUploads localFiles s3Objects = [] then []
            else [Event.uploadCount (computeUploads localFiles s3Objects).length])
        ++ um
        ++ concatAll ((computeDeletes localFiles s3Objects).map (fun f => deleteObjEvents cfg f))
        ++ [Event.doneMsg])

/-- Whether an event is a store mutation call. -/
def isMutation : Event → Bool
  | Event.s3UploadCall _ _ _ => true
  | Event.s3DeleteCall _ _ => true
  | _ => false

/-- Whether an event is the upload client call. -/
def isUploadCall : Event → Bool
  | Event.s3UploadCall _ _ _ => true
  | _ => false

/-- Whether an event is the delete client call. -/
def isDeleteCall : Event → Bool
  | Event.s3DeleteCall _ _ => true
  | _ => false

/-- The ordering property of claim C4: the trace splits into a first part
with no delete call (where all uploads happen) and a second part with no
upload call (where all deletes happen). -/
def NoDeleteBeforeUploadsDone (tr : List Event) : Prop :=
  ∃ t₁ t₂, tr = t₁ ++ t₂ ∧ (∀ e ∈ t₁, isDeleteCall e = false) ∧ (∀ e ∈ t₂, isUploadCall e = false)

/-! ## Claim-side definitions

These two definitions do not embed source code; they spell out constructions
that appear in the claims themselves and are compared with the embedded
functions above. -/

/-- From the statement of claim C2: the remote manifest "obtained from R by
setting each path in U to its identifier in L and removing each path in D",
where U and D are the work lists of reconciling (L, R).  Entries keep their
positions; paths uploaded for the first time are appended. -/
def remoteAfterRun (L R : Manifest) : Manifest :=
  (R.filter (fun kv => !(computeDeletes L R).contains kv.1)).map
    (fun kv => (kv.1, if (computeUploads L R).contains kv.1 then (dictGet L kv.1).getD "" else kv.2))
  ++ ((computeUploads L R).filter (fun q => !containsKey R q)).map
      (fun q => (q, (dictGet L q).getD ""))

/-- From the statement of claim C7: the object's key with the configured
prefix stripped and any leading slashes removed. -/
def specStrippedKey (pfx key : String) : String :=
  ⟨(key.data.drop pfx.data.length).dropWhile (fun c => c = '/')⟩

/-! ## Lemmas about the path embedding -/

theorem splitComps_cons (c : Char) (rest : List Char) :
    splitComps (c :: rest) =
      if c = '/' then splitComps rest
      else
        match splitComps rest with
        | [] => [[c]]
        | comp :: comps =>
          if rest.head? = some '/' then [c] :: comp :: comps else (c :: comp) :: comps := rfl

theorem splitComps_eq_nil_iff (l : List Char) :
    splitComps l = [] ↔ ∀ c ∈ l, c = '/' := by
  induction l with
  | nil => simp [splitComps]
  | cons c rest ih =>
    rw [splitComps_cons]
    by_cases hc : c = '/'
    · subst hc; simp [ih]
    · rw [if_neg hc]
      constructor
      · intro h
        cases hsc : splitComps rest with
        | nil => rw [hsc] at h; simp at h
        | cons comp comps => rw [hsc] at h; by_cases hh : rest.head? = some '/' <;> simp [hh] at h
      · intro h
        exact absurd (h c (by simp)) hc

/-- Splitting distributes over a separator placed between two strings. -/
theorem splitComps_append_slash (a b : List Char) :
    splitComps (a ++ '/' :: b) = splitComps a ++ splitComps b := by
  induction a with
  | nil => simp [splitComps]
  | cons c a' ih =>
    rw [List.cons_append, splitComps_cons, splitComps_cons, ih]
    by_cases hc : c = '/'
    · simp [hc]
    · rw [if_neg hc, if_neg hc]
      cases hsa : splitComps a' with
      | nil =>
        have hall : ∀ x ∈ a', x = '/' := (splitComps_eq_nil_iff a').mp hsa
        have hh : (a' ++ '/' :: b).head? = some '/' := by
          cases a' with
          | nil => simp
          | cons y a'' => simp [hall y (by simp)]
        cases hsb : splitComps b with
        | nil => simp [hh]
        | cons comp comps => simp [hh]
      | cons comp comps =>
        have hne : a' ≠ [] := by
          intro h; subst h; simp [splitComps] at hsa
        have hh : (a' ++ '/' :: b).head? = a'.head? := by
          cases a' with
          | nil => exact absurd rfl hne
          | cons y a'' => simp
        simp only [List.cons_append, hh]
        by_cases hy : a'.head? = some '/' <;> simp [hy]

theorem splitComps_append_last_slash (a : List Char) :
    splitComps (a ++ ['/']) = splitComps a := by
  simpa [splitComps] using splitComps_append_slash a []

/-- Components of a `join` whose second argument is relative. -/
theorem splitComps_pjoinL (a b : List Char) (hb : b.head? ≠ some '/') :
    splitComps (pjoinL a b) = splitComps a ++ splitComps b := by
  unfold pjoinL
  rw [if_neg hb]
  by_cases h : a = [] ∨ a.getLast? = some '/'
  · rw [if_pos h]
    rcases h with h | h
    · simp [h, splitComps]
    · have hne : a ≠ [] := by
        intro hn; subst hn; simp at h
      have hsplit : a.dropLast ++ [a.getLast hne] = a := List.dropLast_append_getLast hne
      have hlast : a.getLast hne = '/' := by
        have := List.getLast?_eq_getLast a hne
        rw [this] at h
        exact Option.some_inj.mp h
      calc splitComps (a ++ b) = splitComps (a.dropLast ++ '/' :: b) := by
            rw [← hsplit, hlast]; simp
        _ = splitComps a.dropLast ++ splitComps b := splitComps_append_slash _ _
        _ = splitComps a ++ splitComps b := by
            rw [← splitComps_append_last_slash a.dropLast, ← hlast, hsplit]
  · rw [if_neg h]
    exact splitComps_append_slash a b

/-- A relative `join` onto a nonempty first argument keeps its first
character. -/
theorem pjoinL_head (a b : List Char) (ha : a ≠ []) (hb : b.head? ≠ some '/') :
    (pjoinL a b).head? = a.head? := by
  unfold pjoinL
  rw [if_neg hb]
  by_cases h : a = [] ∨ a.getLast? = some '/'
  · rw [if_pos h]
    cases a with
    | nil => exact absurd rfl ha
    | cons x xs => simp
  · rw [if_neg h]
    cases a with
    | nil => exact absurd rfl ha
    | cons x xs => simp

/-- Normalization walks left to right, so appending components after a
prefix continues the fold from the prefix's result. -/
theorem normComps_append (xs ys : List (List Char)) :
    normComps (xs ++ ys) = ys.foldl normStep (normComps xs) := by
  unfold normComps
  exact List.foldl_append _ _ xs ys

/-- Components that are neither `.` nor `..` are simply appended by
normalization, whatever the accumulated prefix. -/
theorem foldl_normStep_clean (ys : List (List Char))
    (h : ∀ c ∈ ys, c ≠ ['.'] ∧ c ≠ ['.', '.']) (acc : List (List Char)) :
    ys.foldl normStep acc = acc ++ ys := by
  induction ys generalizing acc with
  | nil => simp
  | cons y ys ih =>
    have hy := h y (by simp)
    rw [List.foldl_cons, ih (fun c hc => h c (by simp [hc]))]
    unfold normStep
    rw [if_neg hy.1, if_neg hy.2]
    simp

theorem normComps_append_clean (xs ys : List (List Char))
    (h : ∀ c ∈ ys, c ≠ ['.'] ∧ c ≠ ['.', '.']) :
    normComps (xs ++ ys) = normComps xs ++ ys := by
  rw [normComps_append]
  exact foldl_normStep_clean ys h (normComps xs)

theorem commonPrefixLen_self_append (a b : List (List Char)) :
    commonPrefixLen a (a ++ b) = a.length := by
  induction a with
  | nil => cases b <;> simp [commonPrefixLen]
  | cons x xs ih => simp [commonPrefixLen, ih]

/-- The `relpath` tail on a start list extended by clean components just
returns those components rejoined. -/
theorem relpathCore_self_append (s pc : List (List Char)) (hne : pc ≠ []) :
    relpathCore s (s ++ pc) = intercalateSlash pc := by
  simp only [relpathCore, commonPrefixLen_self_append, Nat.sub_self, List.replicate_zero,
    List.nil_append, List.drop_left, if_neg hne]

/-- Central stripping lemma: if the key's component list extends the start's
component list by clean components `rc` (and both strings are relative or
both absolute, witnessed by equal first characters), then `relpath` returns
`rc` rejoined with `/`, in any working directory. -/
theorem relpathL_strip (cwd a k : List Char) (rc : List (List Char)) (ha : a ≠ [])
    (hsck : splitComps k = splitComps a ++ rc)
    (hhead : k.head? = a.head?)
    (hclean : ∀ c ∈ rc, c ≠ ['.'] ∧ c ≠ ['.', '.'])
    (hne : rc ≠ []) :
    relpathL cwd k a = intercalateSlash rc := by
  have hk : k ≠ [] := by
    intro h
    subst h
    cases a with
    | nil => exact absurd rfl ha
    | cons x xs => simp at hhead
  unfold relpathL
  by_cases habs : a.head? = some '/'
  · have hkabs : k.head? = some '/' := hhead.trans habs
    have h1 : absComps cwd k = absComps cwd a ++ rc := by
      unfold absComps pjoinL
      rw [if_pos hkabs, if_pos habs, hsck]
      exact normComps_append_clean _ _ hclean
    rw [h1]
    exact relpathCore_self_append _ _ hne
  · have hkrel : k.head? ≠ some '/' := by rw [hhead]; exact habs
    have h1 : absComps cwd k = absComps cwd a ++ rc := by
      unfold absComps
      rw [splitComps_pjoinL cwd k hkrel, splitComps_pjoinL cwd a habs, hsck,
        ← List.append_assoc]
      exact normComps_append_clean _ _ hclean
    rw [h1]
    exact relpathCore_self_append _ _ hne

theorem replaceBS_eq_self (s : List Char) (h : ∀ c ∈ s, c ≠ '\\') :
    replaceBS s = s := by
  induction s with
  | nil => rfl
  | cons c cs ih =>
    unfold replaceBS at ih ⊢
    rw [List.map_cons, if_neg (h c (by simp)), ih (fun x hx => h x (by simp [hx]))]

/-- Characters of a relative `join` come from one of the arguments or are
the inserted separator. -/
theorem mem_pjoinL (a b : List Char) (c : Char) (hc : c ∈ pjoinL a b) :
    c ∈ a ∨ c ∈ b ∨ c = '/' := by
  unfold pjoinL at hc
  by_cases hb : b.head? = some '/'
  · rw [if_pos hb] at hc; exact Or.inr (Or.inl hc)
  · rw [if_neg hb] at hc
    by_cases h : a = [] ∨ a.getLast? = some '/'
    · rw [if_pos h] at hc
      rcases List.mem_append.mp hc with h' | h'
      · exact Or.inl h'
      · exact Or.inr (Or.inl h')
    · rw [if_neg h] at hc
      rcases List.mem_append.mp hc with h' | h'
      · exact Or.inl h'
      · rcases List.mem_cons.mp h' with h'' | h''
        · exact Or.inr (Or.inr h'')
        · exact Or.inr (Or.inl h'')

/-! ## Lemmas about dict lookup and the reconciler -/

theorem dictGet_append_of_some {A : Manifest} {p v : String} (B : Manifest)
    (h : dictGet A p = some v) : dictGet (A ++ B) p = some v := by
  induction A with
  | nil => simp [dictGet] at h
  | cons kv rest ih =>
    obtain ⟨k, w⟩ := kv
    by_cases hk : k = p
    · simpa [dictGet, hk] using h
    · rw [dictGet, if_neg hk] at h
      simpa [dictGet, hk] using ih h

theorem dictGet_append_of_none {A : Manifest} {p : String} (B : Manifest)
    (h : dictGet A p = none) : dictGet (A ++ B) p = dictGet B p := by
  induction A with
  | nil => simp [dictGet]
  | cons kv rest ih =>
    obtain ⟨k, w⟩ := kv
    by_cases hk : k = p
    · simp [dictGet, hk] at h
    · rw [dictGet, if_neg hk] at h
      simpa [dictGet, hk] using ih h

theorem mem_of_dictGet_some {m : Manifest} {p v : String}
    (h : dictGet m p = some v) : (p, v) ∈ m := by
  induction m with
  | nil => simp [dictGet] at h
  | cons kv rest ih =>
    obtain ⟨k, w⟩ := kv
    by_cases hk : k = p
    · rw [dictGet, if_pos hk] at h
      obtain rfl := Option.some_inj.mp h
      simp [hk]
    · rw [dictGet, if_neg hk] at h
      exact List.mem_cons_of_mem _ (ih h)

theorem isSome_dictGet_of_mem {m : Manifest} {p v : String}
    (h : (p, v) ∈ m) : (dictGet m p).isSome = true := by
  induction m with
  | nil => simp at h
  | cons kv rest ih =>
    obtain ⟨k, w⟩ := kv
    by_cases hk : k = p
    · simp [dictGet, hk]
    · rw [dictGet, if_neg hk]
      rcases List.mem_cons.mp h with h' | h'
      · exact absurd (congrArg Prod.fst h').symm hk
      · exact ih h'

theorem containsKey_iff_exists (m : Manifest) (p : String) :
    containsKey m p = true ↔ ∃ v, (p, v) ∈ m := by
  constructor
  · intro h
    unfold containsKey at h
    obtain ⟨v, hv⟩ := Option.isSome_iff_exists.mp h
    exact ⟨v, mem_of_dictGet_some hv⟩
  · intro ⟨v, hv⟩
    exact isSome_dictGet_of_mem hv

theorem dictGet_some_of_mem {m : Manifest} {p v : String} (hm : NodupKeys m)
    (h : (p, v) ∈ m) : dictGet m p = some v := by
  induction m with
  | nil => simp at h
  | cons kv rest ih =>
    obtain ⟨k, w⟩ := kv
    have hm' : NodupKeys rest := (List.nodup_cons.mp hm).2
    rcases List.mem_cons.mp h with h' | h'
    · obtain ⟨rfl, rfl⟩ := Prod.mk.injEq .. ▸ h'
      · simp [dictGet]
    · have hk : k ≠ p := by
        intro hk
        subst hk
        exact (List.nodup_cons.mp hm).1 (List.mem_map.mpr ⟨(k, v), h', rfl⟩)
      rw [dictGet, if_neg hk]
      exact ih hm' h'

/-- The upload predicate of the classification, phrased on lookups: a path
is uploaded unless the remote holds the same identifier and that identifier
is non-empty (Python truthiness makes an empty remote tag "missing"). -/
theorem classify_isUpload_iff (R : Manifest) (p v : String) :
    (classify R p v).isUpload = true ↔ ¬(dictGet R p = some v ∧ v ≠ "") := by
  unfold classify
  cases hg : dictGet R p with
  | none => simp [Cls.isUpload, hg]
  | some t =>
    by_cases ht : t = ""
    · subst ht
      by_cases hv : v = ""
      · simp [Cls.isUpload, hv]
      · simp [Cls.isUpload, hv]
        exact fun h => hv h.symm
    · by_cases hvt : v ≠ t
      · simp only [if_neg ht, if_pos hvt, Cls.isUpload]
        simp [Option.some_inj]
        intro h
        exact absurd h.symm hvt
      · push_neg at hvt
        subst hvt
        simp [Cls.isUpload, if_neg ht, ht]

theorem mem_computeUploads_exists (L R : Manifest) (p : String) :
    p ∈ computeUploads L R ↔ ∃ v, (p, v) ∈ L ∧ (classify R p v).isUpload = true := by
  unfold computeUploads
  constructor
  · intro h
    obtain ⟨kv, hkv, hfst⟩ := List.mem_map.mp h
    obtain ⟨hmem, hpred⟩ := List.mem_filter.mp hkv
    obtain ⟨k, v⟩ := kv
    simp only at hfst
    subst hfst
    exact ⟨v, hmem, by simpa using hpred⟩
  · intro ⟨v, hv, hup⟩
    exact List.mem_map.mpr ⟨(p, v), List.mem_filter.mpr ⟨hv, hup⟩, rfl⟩

theorem mem_computeUploads (L R : Manifest) (p : String) (hL : NodupKeys L) :
    p ∈ computeUploads L R ↔ ∃ v, dictGet L p = some v ∧ (classify R p v).isUpload = true := by
  rw [mem_computeUploads_exists]
  constructor
  · intro ⟨v, hv, hup⟩
    exact ⟨v, dictGet_some_of_mem hL hv, hup⟩
  · intro ⟨v, hv, hup⟩
    exact ⟨v, mem_of_dictGet_some hv, hup⟩

theorem mem_computeDeletes (L R : Manifest) (p : String) :
    p ∈ computeDeletes L R ↔ containsKey R p = true ∧ containsKey L p = false := by
  unfold computeDeletes
  constructor
  · intro h
    obtain ⟨kv, hkv, hfst⟩ := List.mem_map.mp h
    obtain ⟨hmem, hpred⟩ := List.mem_filter.mp hkv
    subst hfst
    refine ⟨(containsKey_iff_exists _ _).mpr ⟨kv.2, hmem⟩, ?_⟩
    simpa using hpred
  · intro ⟨hR, hL⟩
    obtain ⟨v, hv⟩ := (containsKey_iff_exists _ _).mp hR
    exact List.mem_map.mpr ⟨(p, v), List.mem_filter.mpr ⟨hv, by simp [hL]⟩, rfl⟩

/-! ## Lemmas about traces -/

theorem mem_concatAll {α : Type} {e : α} :
    ∀ {lss : List (List α)}, e ∈ concatAll lss ↔ ∃ ls ∈ lss, e ∈ ls := by
  intro lss
  induction lss with
  | nil => simp [concatAll]
  | cons ls lss ih =>
    unfold concatAll
    rw [List.mem_append, ih]
    constructor
    · rintro (h | ⟨ls', hls', hel⟩)
      · exact ⟨ls, by simp, h⟩
      · exact ⟨ls', by simp [hls'], hel⟩
    · rintro ⟨ls', hls', hel⟩
      rcases List.mem_cons.mp hls' with rfl | h
      · exact Or.inl hel
      · exact Or.inr ⟨ls', h, hel⟩

/-- Everything in an interleaving comes from one of the interleaved lists. -/
theorem exists_mem_of_isMerge {α : Type} [DecidableEq α] :
    ∀ {tr : List α} {lss : List (List α)}, isMerge lss tr = true →
      ∀ e ∈ tr, ∃ ls ∈ lss, e ∈ ls := by
  intro tr
  induction tr with
  | nil => intro lss h e he; simp at he
  | cons t tr ih =>
    intro lss h e he
    rw [isMerge, List.any_eq_true] at h
    obtain ⟨i, hi, hf⟩ := h
    cases hL : lss[i]? with
    | none => rw [hL] at hf; simp at hf
    | some ls =>
      cases ls with
      | nil => rw [hL] at hf; simp at hf
      | cons x xs =>
        rw [hL] at hf
        simp only [Bool.and_eq_true, decide_eq_true_eq] at hf
        obtain ⟨hxe, hrest⟩ := hf
        have hxl : (x :: xs) ∈ lss := by
          obtain ⟨hn, hg⟩ := List.getElem?_eq_some_iff.mp hL
          rw [← hg]
          exact List.getElem_mem hn
        rcases List.mem_cons.mp he with rfl | he'
        · exact ⟨x :: xs, hxl, by simp [hxe]⟩
        · obtain ⟨ls', hls', hel⟩ := ih hrest e he'
          rcases List.mem_or_eq_of_mem_set hls' with h' | heq
          · exact ⟨ls', h', hel⟩
          · exact ⟨x :: xs, hxl, List.mem_cons_of_mem _ (heq ▸ hel)⟩

theorem isUploadCall_eq_false_of_not_mutation (e : Event) (h : isMutation e = false) :
    isUploadCall e = false := by
  cases e <;> first | rfl | exact h

theorem isDeleteCall_eq_false_of_not_mutation (e : Event) (h : isMutation e = false) :
    isDeleteCall e = false := by
  cases e <;> first | rfl | exact h

theorem isMutation_classifyEvents (L R : Manifest) (e : Event)
    (he : e ∈ classifyEvents L R) : isMutation e = false := by
  unfold classifyEvents at he
  rcases List.mem_append.mp he with h | h
  · obtain ⟨kv, hkv, heq⟩ := List.mem_map.mp h
    cases hc : classify R kv.1 kv.2 <;> rw [hc] at heq <;> subst heq <;> rfl
  · obtain ⟨kv, hkv, heq⟩ := List.mem_map.mp h
    subst heq
    rfl

theorem isMutation_countSeg (c : Prop) [Decidable c] (n : Nat) (e : Event)
    (he : e ∈ (if c then ([] : List Event) else [Event.uploadCount n])) :
    isMutation e = false := by
  by_cases hc : c
  · simp [hc] at he
  · simp [hc] at he
    subst he
    rfl

theorem isMutation_uploadFileEvents_dry (cfg : Config) (upOk : String → Bool) (f : String)
    (hd : cfg.dryRun = true) (e : Event) (he : e ∈ uploadFileEvents cfg upOk f) :
    isMutation e = false := by
  unfold uploadFileEvents at he
  rw [hd] at he
  simp at he
  subst he
  rfl

theorem isMutation_deleteObjEvents_dry (cfg : Config) (f : String)
    (hd : cfg.dryRun = true) (e : Event) (he : e ∈ deleteObjEvents cfg f) :
    isMutation e = false := by
  unfold deleteObjEvents at he
  rw [hd] at he
  simp at he
  subst he
  rfl

theorem isDeleteCall_uploadFileEvents (cfg : Config) (upOk : String → Bool) (f : String)
    (e : Event) (he : e ∈ uploadFileEvents cfg upOk f) : isDeleteCall e = false := by
  unfold uploadFileEvents at he
  by_cases hd : cfg.dryRun
  · rw [if_pos hd] at he
    simp at he
    subst he
    rfl
  · rw [if_neg hd] at he
    by_cases ho : upOk f
    · rw [if_pos ho] at he
      rcases List.mem_cons.mp he with rfl | he'
      · rfl
      · simp at he'
        subst he'
        rfl
    · rw [if_neg ho] at he
      simp at he
      subst he
      rfl

theorem isUploadCall_deleteObjEvents (cfg : Config) (f : String)
    (e : Event) (he : e ∈ deleteObjEvents cfg f) : isUploadCall e = false := by
  unfold deleteObjEvents at he
  by_cases hd : cfg.dryRun
  · rw [if_pos hd] at he
    simp at he
    subst he
    rfl
  · rw [if_neg hd] at he
    rcases List.mem_cons.mp he with rfl | he'
    · rfl
    · simp at he'
      subst he'
      rfl

/-! ## Claim C3: dry-run performs no store mutation -/

/-- C3 (confirmed): when the dry-run flag is set, no trace of the run
contains an object-store upload call or delete call — every work item only
produces an intent report, so remote store and local tree are untouched. -/
theorem c3_dry_run_no_mutation (cfg : Config) (L R : Manifest) (upOk : String → Bool)
    (tr : List Event) (hd : cfg.dryRun = true) (ht : SyncTrace cfg L R upOk tr) :
    ∀ e ∈ tr, isMutation e = false := by
  obtain ⟨um, hm, rfl⟩ := ht
  intro e he
  rcases List.mem_cons.mp he with rfl | he
  · rfl
  rcases List.mem_append.mp he with h1 | hdone
  · rcases List.mem_append.mp h1 with h2 | hdel
    · rcases List.mem_append.mp h2 with h3 | hum
      · rcases List.mem_append.mp h3 with hcls | hcnt
        · exact isMutation_classifyEvents L R e hcls
        · exact isMutation_countSeg _ _ e hcnt
      · obtain ⟨ls, hls, hel⟩ := exists_mem_of_isMerge hm e hum
        obtain ⟨f, hf, rfl⟩ := List.mem_map.mp hls
        exact isMutation_uploadFileEvents_dry cfg upOk f hd e hel
    · obtain ⟨ls, hls, hel⟩ := mem_concatAll.mp hdel
      obtain ⟨f, hf, rfl⟩ := List.mem_map.mp hls
      exact isMutation_deleteObjEvents_dry cfg f hd e hel
  · simp at hdone
    subst hdone
    rfl

/-- Witness for C3 at a concrete dry run with one upload and one delete. -/
theorem c3_witness : isMutation (Event.wouldDelete "old.txt") = false :=
  c3_dry_run_no_mutation ⟨"root", "bucket", "", true, 5⟩ [("a.txt", "d1")] [("old.txt", "d9")]
    (fun _ => true)
    [Event.startMsg, Event.missingRemote "a.txt", Event.orphanMsg "old.txt",
     Event.uploadCount 1, Event.wouldUpload "a.txt", Event.wouldDelete "old.txt",
     Event.doneMsg]
    rfl
    ⟨[Event.wouldUpload "a.txt"], by decide, by decide⟩
    (Event.wouldDelete "old.txt") (by decide)

/-! ## Claim C4: deletes happen strictly after the upload phase -/

/-- C4 (confirmed): in a real run's trace, there is a split point before
which no delete call occurs and after which no upload call occurs — the
`with ThreadPoolExecutor` block joins all uploads before the delete loop. -/
theorem c4_deletes_after_uploads (cfg : Config) (L R : Manifest) (upOk : String → Bool)
    (tr : List Event) (hd : cfg.dryRun = false) (ht : SyncTrace cfg L R upOk tr) :
    NoDeleteBeforeUploadsDone tr := by
  obtain ⟨um, hm, rfl⟩ := ht
  refine ⟨Event.startMsg ::
      (classifyEvents L R
        ++ (if computeUploads L R = [] then []
            else [Event.uploadCount (computeUploads L R).length])
        ++ um),
    concatAll ((computeDeletes L R).map (fun f => deleteObjEvents cfg f)) ++ [Event.doneMsg],
    by simp, ?_, ?_⟩
  · intro e he
    rcases List.mem_cons.mp he with rfl | he
    · rfl
    rcases List.mem_append.mp he with h1 | hum
    · rcases List.mem_append.mp h1 with hcls | hcnt
      · exact isDeleteCall_eq_false_of_not_mutation e (isMutation_classifyEvents L R e hcls)
      · exact isDeleteCall_eq_false_of_not_mutation e (isMutation_countSeg _ _ e hcnt)
    · obtain ⟨ls, hls, hel⟩ := exists_mem_of_isMerge hm e hum
      obtain ⟨f, hf, rfl⟩ := List.mem_map.mp hls
      exact isDeleteCall_uploadFileEvents cfg upOk f e hel
  · intro e he
    rcases List.mem_append.mp he with hdel | hdone
    · obtain ⟨ls, hls, hel⟩ := mem_concatAll.mp hdel
      obtain ⟨f, hf, rfl⟩ := List.mem_map.mp hls
      exact isUploadCall_deleteObjEvents cfg f e hel
    · simp at hdone
      subst hdone
      rfl

/-- Witness for C4 at a concrete real run with one upload and one delete. -/
theorem c4_witness :
    NoDeleteBeforeUploadsDone
      [Event.startMsg, Event.missingRemote "a.txt", Event.orphanMsg "old.txt",
       Event.uploadCount 1, Event.s3UploadCall "bucket" "a.txt" "root/a.txt",
       Event.uploadedMsg "a.txt", Event.s3DeleteCall "bucket" "old.txt",
       Event.deletedMsg "old.txt", Event.doneMsg] :=
  c4_deletes_after_uploads ⟨"root", "bucket", "", false, 5⟩ [("a.txt", "d1")]
    [("old.txt", "d9")] (fun _ => true) _
    rfl
    ⟨[Event.s3UploadCall "bucket" "a.txt" "root/a.txt", Event.uploadedMsg "a.txt"],
      by decide, by decide⟩

/-! ## Claim C1: the reconciliation classification -/

/-- C1 counterexample: a path present in both manifests with identical
identifiers (here the empty string) is nevertheless put on the Upload list,
because `if not s3Md5` treats an empty remote identifier as missing.  The
claim requires such a path to be on neither list. -/
theorem c1_counterexample :
    dictGet [("p", "")] "p" = some "" ∧ computeUploads [("p", "")] [("p", "")] = ["p"] := by
  refine ⟨by decide, by decide⟩

/-- C1 amended: a local path is uploaded iff the remote does NOT hold the
same identifier as a non-empty string (absent, empty-tagged, or differing
remote identifiers all upload; identical non-empty identifiers give no
action); a remote path is deleted iff it is absent locally; and the claim's
example behaves as stated. -/
theorem c1_reconcile_amended :
    (∀ L R : Manifest, ∀ p : String, NodupKeys L →
      (p ∈ computeUploads L R ↔ ∃ v, dictGet L p = some v ∧ ¬(dictGet R p = some v ∧ v ≠ "")))
    ∧ (∀ L R : Manifest, ∀ p : String,
        p ∈ computeDeletes L R ↔ (containsKey R p = true ∧ containsKey L p = false))
    ∧ computeUploads [("a.txt", "d1"), ("b.txt", "d2")] [("a.txt", "d1"), ("c.txt", "d3")] = ["b.txt"]
    ∧ computeDeletes [("a.txt", "d1"), ("b.txt", "d2")] [("a.txt", "d1"), ("c.txt", "d3")] = ["c.txt"] := by
  refine ⟨?_, ?_, by decide, by decide⟩
  · intro L R p hL
    rw [mem_computeUploads L R p hL]
    simp only [classify_isUpload_iff]
  · intro L R p
    exact mem_computeDeletes L R p

/-- Witness for C1 at the claim's example manifests. -/
theorem c1_witness :
    "b.txt" ∈ computeUploads [("a.txt", "d1"), ("b.txt", "d2")] [("a.txt", "d1"), ("c.txt", "d3")] :=
  (c1_reconcile_amended.1 [("a.txt", "d1"), ("b.txt", "d2")] [("a.txt", "d1"), ("c.txt", "d3")]
    "b.txt" (by unfold NodupKeys; decide)).mpr ⟨"d2", by decide, by decide⟩

/-! ## Claim C8: determinism of the work lists under re-enumeration -/

/-- C8 counterexample: two manifests with the same key-identifier pairs but
different insertion order give the Upload list in different orders (the list
follows dict iteration order), so the lists are not identical as the claim
states. -/
theorem c8_counterexample :
    ([("a", "1"), ("b", "2")] : Manifest).Perm [("b", "2"), ("a", "1")]
    ∧ computeUploads [("a", "1"), ("b", "2")] [] = ["a", "b"]
    ∧ computeUploads [("b", "2"), ("a", "1")] [] = ["b", "a"]
    ∧ (["a", "b"] : List String) ≠ ["b", "a"] := by
  refine ⟨by decide, by decide, by decide, by decide⟩

/-- Lookup in a dict is invariant under permuting its entries (keys being
unique). -/
theorem dictGet_perm : ∀ {m₁ m₂ : Manifest}, m₁.Perm m₂ → NodupKeys m₁ →
    ∀ k, dictGet m₁ k = dictGet m₂ k := by
  intro m₁ m₂ h
  induction h with
  | nil => intro _ k; rfl
  | cons x h ih =>
    intro hn k
    obtain ⟨kx, vx⟩ := x
    have hn' : NodupKeys _ := (List.nodup_cons.mp hn).2
    by_cases hk : kx = k <;> simp [dictGet, hk, ih hn' k]
  | swap x y l =>
    intro hn k
    obtain ⟨kx, vx⟩ := x
    obtain ⟨ky, vy⟩ := y
    have hxy : ky ≠ kx := by
      intro he
      exact (List.nodup_cons.mp hn).1 (by simp [he])
    by_cases hky : ky = k <;> by_cases hkx : kx = k <;>
      simp [dictGet, hky, hkx]
    exact absurd (hky.trans hkx.symm) hxy
  | trans h₁ h₂ ih₁ ih₂ =>
    intro hn k
    have hn₂ : NodupKeys _ := ((h₁.map Prod.fst).nodup_iff).mp hn
    rw [ih₁ hn k, ih₂ hn₂ k]

/-- C8 amended: for manifests holding the same key-identifier pairs, the
Upload and Delete lists agree as multisets (they are permutations of each
other); their order follows each manifest's own enumeration order, so it is
deterministic for a fixed enumeration but not across re-orderings. -/
theorem c8_perm_amended (L₁ L₂ R₁ R₂ : Manifest) (hL : L₁.Perm L₂) (hR : R₁.Perm R₂)
    (hLn : NodupKeys L₁) (hRn : NodupKeys R₁) :
    (computeUploads L₁ R₁).Perm (computeUploads L₂ R₂)
    ∧ (computeDeletes L₁ R₁).Perm (computeDeletes L₂ R₂) := by
  have hgR : ∀ k, dictGet R₁ k = dictGet R₂ k := dictGet_perm hR hRn
  have hgL : ∀ k, dictGet L₁ k = dictGet L₂ k := dictGet_perm hL hLn
  constructor
  · unfold computeUploads
    have hstep : (L₂.filter (fun kv => (classify R₁ kv.1 kv.2).isUpload))
        = L₂.filter (fun kv => (classify R₂ kv.1 kv.2).isUpload) :=
      List.filter_congr (fun kv _ => by unfold classify; rw [hgR kv.1])
    rw [← hstep]
    exact (hL.filter _).map _
  · unfold computeDeletes
    have hstep : (R₂.filter (fun kv => !containsKey L₁ kv.1))
        = R₂.filter (fun kv => !containsKey L₂ kv.1) :=
      List.filter_congr (fun kv _ => by unfold containsKey; rw [hgL kv.1])
    rw [← hstep]
    exact (hR.filter _).map _

/-- Witness for C8 on the counterexample manifests: the lists are indeed
permutations of each other. -/
theorem c8_witness :
    (computeUploads [("a", "1"), ("b", "2")] []).Perm (computeUploads [("b", "2"), ("a", "1")] [])
    ∧ (computeDeletes [("a", "1"), ("b", "2")] []).Perm (computeDeletes [("b", "2"), ("a", "1")] []) :=
  c8_perm_amended [("a", "1"), ("b", "2")] [("b", "2"), ("a", "1")] [] []
    (by decide) (by decide) (by unfold NodupKeys; decide) (by unfold NodupKeys; decide)

/-! ## Claim C5: fate of a failing upload in the batch -/

/-- C5 (code bug evidence): with Upload list `["a.txt", "b.txt"]` where the
upload of `a.txt` raises, the run's trace shows the sibling `b.txt` uploaded
and reported, the batch not aborted — but the failure of `a.txt` produces no
report at all: the `executor.map` iterator is discarded, so the exception is
silently swallowed (there exists no failure event in the whole trace, and
`a.txt` is never reported uploaded nor failed after its classification
line). -/
theorem c5_swallowed_failure :
    syncEventsSeq ⟨"root", "bucket", "", false, 5⟩ [("a.txt", "d1"), ("b.txt", "d2")] []
        (fun f => decide (f ≠ "a.txt"))
      = [Event.startMsg, Event.missingRemote "a.txt", Event.missingRemote "b.txt",
         Event.uploadCount 2,
         Event.s3UploadCall "bucket" "a.txt" "root/a.txt",
         Event.s3UploadCall "bucket" "b.txt" "root/b.txt", Event.uploadedMsg "b.txt",
         Event.doneMsg]
    ∧ Event.uploadedMsg "b.txt"
        ∈ syncEventsSeq ⟨"root", "bucket", "", false, 5⟩ [("a.txt", "d1"), ("b.txt", "d2")] []
            (fun f => decide (f ≠ "a.txt"))
    ∧ Event.uploadedMsg "a.txt"
        ∉ syncEventsSeq ⟨"root", "bucket", "", false, 5⟩ [("a.txt", "d1"), ("b.txt", "d2")] []
            (fun f => decide (f ≠ "a.txt")) := by
  refine ⟨by decide, by decide, by decide⟩

/-! ## Claim C6: a failing fingerprint read aborts the whole manifest build -/

/-- C6 counterexample: one file failing with a permission error makes
`listLocalFiles` raise, so no manifest is produced at all — the remaining
readable file is not "continued with" as the claim requires. -/
theorem c6_counterexample :
    listLocalFiles "/" "sync"
      [("sync/bad.txt", Except.error IOErr.permissionDenied),
       ("sync/good.txt", Except.ok [104, 105])]
      = Except.error IOErr.permissionDenied := rfl

theorem listLocalFilesGo_cons (cwd lf : String) (files : Manifest) (fp : String)
    (r : Except IOErr (List Nat)) (rest : List (String × Except IOErr (List Nat))) :
    listLocalFilesGo cwd lf files ((fp, r) :: rest) =
      match calculateMd5 r with
      | Except.error e => Except.error e
      | Except.ok h =>
        listLocalFilesGo cwd lf
          (dictSet files ⟨replaceBS (relpathL cwd.data fp.data lf.data)⟩ h) rest := rfl

/-- C6 amended: if reading any file fails during fingerprinting, the whole
manifest build aborts with the first such error (there being no handler in
`listLocalFiles`); no manifest is produced and the remaining files are not
processed. -/
theorem c6_abort_amended (cwd localFolder : String)
    (pre rest : List (String × Except IOErr (List Nat))) (p : String) (e : IOErr)
    (hpre : ∀ x ∈ pre, ∃ b, x.2 = Except.ok b) :
    listLocalFiles cwd localFolder (pre ++ (p, Except.error e) :: rest) = Except.error e := by
  unfold listLocalFiles
  suffices h : ∀ (pre' : List (String × Except IOErr (List Nat))),
      (∀ x ∈ pre', ∃ b, x.2 = Except.ok b) → ∀ acc,
      listLocalFilesGo cwd localFolder acc (pre' ++ (p, Except.error e) :: rest)
        = Except.error e from h pre hpre []
  intro pre'
  induction pre' with
  | nil => intro _ acc; rfl
  | cons x pre' ih =>
    intro hpre' acc
    obtain ⟨b, hb⟩ := hpre' x (by simp)
    obtain ⟨fp, r⟩ := x
    simp only at hb
    subst hb
    rw [List.cons_append, listLocalFilesGo_cons]
    exact ih (fun y hy => hpre' y (by simp [hy])) _

/-- Witness for C6 at a concrete walk with one good file before the bad
one. -/
theorem c6_witness :
    listLocalFiles "/" "sync"
      [("sync/x.txt", Except.ok [104]), ("sync/bad.txt", Except.error IOErr.ioFault)]
      = Except.error IOErr.ioFault :=
  c6_abort_amended "/" "sync" [("sync/x.txt", Except.ok [104])] [] "sync/bad.txt" IOErr.ioFault
    (by
      intro x hx
      rw [List.mem_singleton] at hx
      subst hx
      exact ⟨[104], rfl⟩)

/-! ## Claim C7: keys recorded by the remote manifest builder -/

/-- C7 counterexample: under prefix `pre`, the listed object `prefix/a.txt`
(which the store returns, since S3 prefixes are plain string prefixes) is
recorded under `../prefix/a.txt` — `os.path.relpath` against a prefix that
does not end on a path-component boundary is not prefix stripping, which
would give `fix/a.txt`. -/
theorem c7_counterexample :
    listS3Objects "/" "pre" [[⟨"prefix/a.txt", "\"d1\""⟩]] = [("../prefix/a.txt", "d1")]
    ∧ specStrippedKey "pre" "prefix/a.txt" = "fix/a.txt"
    ∧ ("../prefix/a.txt" : String) ≠ "fix/a.txt" := by
  refine ⟨by decide, by decide, by decide⟩

/-- C7 amended: when the object's key extends the non-empty prefix at a path
component boundary by a normalized remainder `r` (no `.`/`..`/empty
components, no backslash), the builder records exactly `r`, paired with the
tag stripped of its surrounding quotes.  For keys whose prefix match is not
component-aligned, the recorded key is `os.path.relpath(key, prefix)`
instead of the stripped key. -/
theorem c7_remote_key_amended (cwd pfx r t : String)
    (hp : pfx ≠ "") (hps : pfx.data.head? ≠ some '/')
    (hrc : ∀ c ∈ splitComps r.data, c ≠ ['.'] ∧ c ≠ ['.', '.'])
    (hre : intercalateSlash (splitComps r.data) = r.data)
    (hrne : r ≠ "")
    (hbs : ∀ c ∈ r.data, c ≠ '\\') :
    recordedKey cwd pfx (pfx ++ "/" ++ r) = r
    ∧ listS3Objects cwd pfx [[⟨pfx ++ "/" ++ r, t⟩]] = [(r, stripQuotes t)] := by
  have hpd : pfx.data ≠ [] := by
    intro h
    apply hp
    cases pfx with
    | mk d =>
      simp only at h
      subst h
      rfl
  have hdata : (pfx ++ "/" ++ r).data = pfx.data ++ '/' :: r.data := by
    simp [String.data_append]
  have hne : splitComps r.data ≠ [] := by
    intro h
    apply hrne
    rw [h] at hre
    have : r.data = [] := by
      rw [← hre]
      rfl
    cases r with
    | mk d =>
      simp only at this
      subst this
      rfl
  have hsck : splitComps (pfx ++ "/" ++ r).data = splitComps pfx.data ++ splitComps r.data := by
    rw [hdata]
    exact splitComps_append_slash _ _
  have hhead : (pfx ++ "/" ++ r).data.head? = pfx.data.head? := by
    rw [hdata]
    cases hc : pfx.data with
    | nil => exact absurd hc hpd
    | cons c l => simp
  have hrel : relpathL cwd.data (pfx ++ "/" ++ r).data pfx.data = intercalateSlash (splitComps r.data) :=
    relpathL_strip cwd.data pfx.data (pfx ++ "/" ++ r).data (splitComps r.data)
      hpd hsck hhead hrc hne
  have h1 : recordedKey cwd pfx (pfx ++ "/" ++ r) = r := by
    unfold recordedKey
    rw [if_pos hp, hrel, hre, replaceBS_eq_self r.data hbs]
  refine ⟨h1, ?_⟩
  have h2 : listS3Objects cwd pfx [[⟨pfx ++ "/" ++ r, t⟩]]
      = [(recordedKey cwd pfx (pfx ++ "/" ++ r), stripQuotes t)] := rfl
  rw [h2, h1]

/-- Witness for C7 at a concrete aligned prefix and two-component key. -/
theorem c7_witness :
    recordedKey "/" "data" ("data" ++ "/" ++ "sub/a.txt") = "sub/a.txt"
    ∧ listS3Objects "/" "data" [[⟨"data" ++ "/" ++ "sub/a.txt", "\"d7\""⟩]]
        = [("sub/a.txt", stripQuotes "\"d7\"")] :=
  c7_remote_key_amended "/" "data" "sub/a.txt" "\"d7\""
    (by decide) (by decide) (by decide) (by decide) (by decide) (by decide)

/-! ## Claim C10: upload-key construction versus remote-key stripping -/

/-- C10 counterexample: a prefix containing a backslash breaks the round
trip — `uploadFile` replaces the backslash with a slash in the stored key,
but `listS3Objects` strips against the raw prefix, so the uploaded file
reappears under `../a/b/f` rather than its manifest key `f`. -/
theorem c10_counterexample :
    s3KeyFor ⟨"root", "bucket", "a\\b", false, 5⟩ "f" = "a/b/f"
    ∧ recordedKey "/" "a\\b" (s3KeyFor ⟨"root", "bucket", "a\\b", false, 5⟩ "f") = "../a/b/f"
    ∧ ("../a/b/f" : String) ≠ "f" := by
  refine ⟨by decide, by decide, by decide⟩

/-- C10 amended: for every non-empty, backslash-free prefix and every
normalized relative path `p` (forward slashes, no leading slash, no `.` or
`..` or empty components, no backslash), stripping the prefix from the
upload key the same way the remote manifest builder does yields `p` again,
in any working directory. -/
theorem c10_roundtrip_amended (cfg : Config) (cwd p : String)
    (hp : cfg.pfx ≠ "")
    (hpbs : ∀ c ∈ cfg.pfx.data, c ≠ '\\')
    (hph : p.data.head? ≠ some '/')
    (hrc : ∀ c ∈ splitComps p.data, c ≠ ['.'] ∧ c ≠ ['.', '.'])
    (hre : intercalateSlash (splitComps p.data) = p.data)
    (hpe : p ≠ "")
    (hbs : ∀ c ∈ p.data, c ≠ '\\') :
    recordedKey cwd cfg.pfx (s3KeyFor cfg p) = p := by
  have hpd : cfg.pfx.data ≠ [] := by
    intro h
    apply hp
    cases hpfx : cfg.pfx with
    | mk d =>
      rw [hpfx] at h
      simp only at h
      subst h
      rfl
  have hkey : s3KeyFor cfg p = ⟨pjoinL cfg.pfx.data p.data⟩ := by
    unfold s3KeyFor
    rw [if_pos hp, replaceBS_eq_self]
    intro c hc
    rcases mem_pjoinL _ _ c hc with h' | h' | h'
    · exact hpbs c h'
    · exact hbs c h'
    · subst h'
      decide
  have hne : splitComps p.data ≠ [] := by
    intro h
    apply hpe
    rw [h] at hre
    have hd : p.data = [] := by
      rw [← hre]
      rfl
    cases p with
    | mk d =>
      simp only at hd
      subst hd
      rfl
  have hrel : relpathL cwd.data (pjoinL cfg.pfx.data p.data) cfg.pfx.data
      = intercalateSlash (splitComps p.data) :=
    relpathL_strip cwd.data cfg.pfx.data (pjoinL cfg.pfx.data p.data) (splitComps p.data)
      hpd (splitComps_pjoinL _ _ hph) (pjoinL_head _ _ hpd hph) hrc hne
  rw [hkey]
  unfold recordedKey
  rw [if_pos hp]
  show (⟨replaceBS (relpathL cwd.data (pjoinL cfg.pfx.data p.data) cfg.pfx.data)⟩ : String) = p
  rw [hrel, hre, replaceBS_eq_self p.data hbs]

/-- Witness for C10 at a concrete prefix and nested path. -/
theorem c10_witness :
    recordedKey "/" "pre" (s3KeyFor ⟨"root", "bucket", "pre", false, 5⟩ "dir/f.txt") = "dir/f.txt" :=
  c10_roundtrip_amended ⟨"root", "bucket", "pre", false, 5⟩ "/" "dir/f.txt"
    (by decide) (by decide) (by decide) (by decide) (by decide) (by decide) (by decide)

/-! ## Claim C2: idempotence of reconciliation -/

theorem contains_iff_mem (l : List String) (a : String) : l.contains a = true ↔ a ∈ l := by
  simp

/-- C2 counterexample: with a single local file whose identifier is the
empty string, applying the first run's result still leaves it on the Upload
list of the second run (the empty remote tag reads as missing), so the
second run is not empty as the claim requires. -/
theorem c2_counterexample :
    computeUploads [("a", "")] (remoteAfterRun [("a", "")] []) = ["a"]
    ∧ (["a"] : List String) ≠ [] := by
  refine ⟨by decide, by decide⟩

theorem dictGet_map_keyval (m : Manifest) (h : String → String → String) (p : String) :
    dictGet (m.map (fun kv => (kv.1, h kv.1 kv.2))) p = (dictGet m p).map (h p) := by
  induction m with
  | nil => rfl
  | cons kv rest ih =>
    obtain ⟨k, w⟩ := kv
    by_cases hk : k = p
    · subst hk
      simp [dictGet]
    · simp [dictGet, hk, ih]

theorem dictGet_filter_keypred (m : Manifest) (q : String → Bool) (p : String)
    (hq : q p = true) :
    dictGet (m.filter (fun kv => q kv.1)) p = dictGet m p := by
  induction m with
  | nil => rfl
  | cons kv rest ih =>
    obtain ⟨k, w⟩ := kv
    by_cases hk : k = p
    · subst hk
      simp [dictGet, hq, List.filter_cons, if_pos hq]
    · cases hqk : q k
      · simp [List.filter_cons, hqk, dictGet, hk, ih]
      · simp [List.filter_cons, hqk, dictGet, hk, ih]

theorem dictGet_filter_none (m : Manifest) (f : String × String → Bool) (p : String)
    (hn : dictGet m p = none) :
    dictGet (m.filter f) p = none := by
  induction m with
  | nil => rfl
  | cons kv rest ih =>
    obtain ⟨k, w⟩ := kv
    have hk : k ≠ p := by
      intro h
      rw [dictGet, if_pos h] at hn
      cases hn
    rw [dictGet, if_neg hk] at hn
    cases hf : f (k, w)
    · simp [List.filter_cons, hf, ih hn]
    · simp [List.filter_cons, hf, dictGet, hk, ih hn]

theorem dictGet_map_pair (xs : List String) (g : String → String) (p : String) :
    dictGet (xs.map (fun q => (q, g q))) p = if p ∈ xs then some (g p) else none := by
  induction xs with
  | nil => simp [dictGet]
  | cons x xs ih =>
    simp only [List.map_cons, dictGet]
    by_cases hx : x = p
    · subst hx
      simp
    · rw [if_neg hx, ih]
      by_cases hp : p ∈ xs
      · rw [if_pos hp, if_pos (List.mem_cons_of_mem _ hp)]
      · rw [if_neg hp, if_neg (fun hcon => by
          rcases List.mem_cons.mp hcon with h | h
          · exact hx h.symm
          · exact hp h)]

/-- After one run, the remote manifest holds exactly the local identifier at
every local path. -/
theorem dictGet_remoteAfterRun (L R : Manifest) (hL : NodupKeys L) (p v : String)
    (hpv : dictGet L p = some v) :
    dictGet (remoteAfterRun L R) p = some v := by
  unfold remoteAfterRun
  have hcL : containsKey L p = true := by
    unfold containsKey
    rw [hpv]
    rfl
  by_cases hR : containsKey R p = true
  · have hpD : p ∉ computeDeletes L R := by
      rw [mem_computeDeletes]
      intro hcon
      rw [hcon.2] at hcL
      cases hcL
    have hqD : (!(computeDeletes L R).contains p) = true := by
      simp [hpD]
    obtain ⟨w, hw⟩ := Option.isSome_iff_exists.mp hR
    apply dictGet_append_of_some
    rw [dictGet_map_keyval (R.filter (fun kv => !(computeDeletes L R).contains kv.1))
        (fun k w => if (computeUploads L R).contains k then (dictGet L k).getD "" else w) p,
      dictGet_filter_keypred R (fun k => !(computeDeletes L R).contains k) p hqD, hw]
    by_cases hU : p ∈ computeUploads L R
    · simp only [Option.map_some']
      rw [if_pos ((contains_iff_mem _ _).mpr hU), hpv]
      rfl
    · have hUc : (computeUploads L R).contains p = false := by
        simp [hU]
      have hcur : ¬(classify R p v).isUpload = true :=
        fun hcon => hU ((mem_computeUploads L R p hL).mpr ⟨v, hpv, hcon⟩)
      rw [classify_isUpload_iff] at hcur
      have hsame := Decidable.not_not.mp hcur
      rw [hw] at hsame
      simp only [Option.map_some', hUc, Bool.false_eq_true, if_false]
      exact hsame.1
  · have hRn : dictGet R p = none := Option.not_isSome_iff_eq_none.mp hR
    have hU : p ∈ computeUploads L R := by
      rw [mem_computeUploads L R p hL]
      refine ⟨v, hpv, ?_⟩
      rw [classify_isUpload_iff]
      intro hcon
      rw [hRn] at hcon
      cases hcon.1
    have h1 : dictGet ((R.filter (fun kv => !(computeDeletes L R).contains kv.1)).map
        (fun kv => (kv.1, if (computeUploads L R).contains kv.1
          then (dictGet L kv.1).getD "" else kv.2))) p = none := by
      rw [dictGet_map_keyval (R.filter (fun kv => !(computeDeletes L R).contains kv.1))
          (fun k w => if (computeUploads L R).contains k then (dictGet L k).getD "" else w) p,
        dictGet_filter_none _ _ _ hRn]
      rfl
    rw [dictGet_append_of_none _ h1, dictGet_map_pair]
    have hmem : p ∈ (computeUploads L R).filter (fun q => !containsKey R q) := by
      rw [List.mem_filter]
      refine ⟨hU, ?_⟩
      rw [Bool.not_eq_true']
      cases hc : containsKey R p
      · rfl
      · exact absurd hc hR
    rw [if_pos hmem, hpv]
    rfl

/-- C2 amended: reconciliation is idempotent provided every local identifier
is a non-empty string (true of every real MD5 hex digest): reconciling `L`
against the remote manifest that reflects the first run's uploads and
deletes yields empty work lists.  With an empty local identifier the path is
re-uploaded forever (see the counterexample). -/
theorem c2_idempotent_amended (L R : Manifest) (hL : NodupKeys L)
    (hv : ∀ kv ∈ L, kv.2 ≠ "") :
    computeUploads L (remoteAfterRun L R) = [] ∧ computeDeletes L (remoteAfterRun L R) = [] := by
  constructor
  · unfold computeUploads
    rw [List.map_eq_nil_iff, List.filter_eq_nil_iff]
    intro kv hkv
    obtain ⟨k, v⟩ := kv
    have hg : dictGet L k = some v := dictGet_some_of_mem hL hkv
    have hvne : v ≠ "" := hv (k, v) hkv
    have hR' : dictGet (remoteAfterRun L R) k = some v := dictGet_remoteAfterRun L R hL k v hg
    simp [classify, hR', hvne, Cls.isUpload]
  · unfold computeDeletes
    rw [List.map_eq_nil_iff, List.filter_eq_nil_iff]
    intro kv hkv
    suffices hc : containsKey L kv.1 = true by simp [hc]
    unfold remoteAfterRun at hkv
    rcases List.mem_append.mp hkv with h | h
    · obtain ⟨kv₀, hkv₀, heq⟩ := List.mem_map.mp h
      obtain ⟨hmem, hpred⟩ := List.mem_filter.mp hkv₀
      have hkey : kv.1 = kv₀.1 := by rw [← heq]
      have hcR : containsKey R kv₀.1 = true :=
        (containsKey_iff_exists _ _).mpr ⟨kv₀.2, by rw [Prod.mk.eta]; exact hmem⟩
      have hnD : kv₀.1 ∉ computeDeletes L R := by
        intro hcon
        rw [(contains_iff_mem _ _).mpr hcon] at hpred
        cases hpred
      rw [hkey]
      by_contra hcon
      have hfalse : containsKey L kv₀.1 = false := by
        cases hcl : containsKey L kv₀.1
        · rfl
        · exact absurd hcl hcon
      exact hnD ((mem_computeDeletes L R kv₀.1).mpr ⟨hcR, hfalse⟩)
    · obtain ⟨q, hq, heq⟩ := List.mem_map.mp h
      obtain ⟨hqU, _⟩ := List.mem_filter.mp hq
      obtain ⟨v, hvL, _⟩ := (mem_computeUploads_exists L R q).mp hqU
      have hkey : kv.1 = q := by rw [← heq]
      rw [hkey]
      exact (containsKey_iff_exists _ _).mpr ⟨v, hvL⟩

/-- Witness for C2 at a concrete pair needing one upload and one delete. -/
theorem c2_witness :
    computeUploads [("a.txt", "d1")] (remoteAfterRun [("a.txt", "d1")] [("gone.txt", "d2")]) = []
    ∧ computeDeletes [("a.txt", "d1")] (remoteAfterRun [("a.txt", "d1")] [("gone.txt", "d2")]) = [] :=
  c2_idempotent_amended [("a.txt", "d1")] [("gone.txt", "d2")]
    (by unfold NodupKeys; decide)
    (by
      intro kv hkv
      rw [List.mem_singleton] at hkv
      subst hkv
      decide)
